import Mathlib

/-!
Shallow embedding of the `use-async-helpers` promise-queue core
(`src/promise-queue.ts`) together with the queue-selection logic of the
combinators (`src/promise-all.ts`, `src/promise-all-settled.ts`).

Modelling conventions:
* Tasks are identified by natural numbers; the backlog `queue` is the list of
  not-yet-started task identifiers, in submission (FIFO) order.
* JavaScript numbers used as counters are modelled as `Int` — the counter
  `runningPromises` can genuinely become negative in the source (a task that
  was in flight when `stop()` reset the counter still decrements it on
  completion), so `Nat` would be unfaithful.
* The queue's registration in its parent's `children` set is tracked from the
  child's side by `memberOf`: the list of parent identifiers whose `children`
  set currently contains this queue.  JavaScript `Set.add` / `Set.delete` are
  modelled by duplicate-free insertion and by `List.filter`.
* `outstanding` is ghost state: the identifiers of tasks that have been
  launched (`launchTask` called) but whose `finally` block has not run yet.
  It exists only to express which completion events are enabled; the source
  has no such field.
* The scheduling is single-threaded and cooperative, so each synchronous
  bookkeeping block of the source becomes one atomic transition function.
-/

namespace UseAsyncHelpers

/-- `Math.ceil(a / b)` of JavaScript for integer `a` and positive integer `b`,
written with Euclidean division so it is exact ceiling division. -/
def ceilDiv (a b : Int) : Int := -(Int.ediv (-a) b)

/-- State of one `PromiseQueue` instance (child-side view).
Fields `queue`, `concurrency`, `runningPromises`, `running`, `started`,
`parent` mirror the source fields; `memberOf` mirrors, from this queue's
side, which parents' `children` sets contain it; `outstanding` is ghost
state listing launched-but-not-yet-completed task identifiers. -/
structure QueueState where
  queue : List Nat
  concurrency : Int
  runningPromises : Int
  running : Bool
  started : Bool
  parent : Option Nat
  memberOf : List Nat
  outstanding : List Nat
deriving Repr, DecidableEq

/-- The constructor: `new PromiseQueue(options)` with the given concurrency
(default 5 in the source) and optional parent. -/
def initQueue (concurrency : Int) (parent : Option Nat) : QueueState :=
  { queue := [], concurrency := concurrency, runningPromises := 0,
    running := false, started := false, parent := parent,
    memberOf := [], outstanding := [] }

/-- `remainingCapacity()`: `this.concurrency - this.runningPromises`. -/
def remainingCapacity (s : QueueState) : Int :=
  s.concurrency - s.runningPromises

/-- `parent.children.add(this)` seen from the child: JavaScript `Set.add`
inserts only if not already present. -/
def registerWith (s : QueueState) (p : Nat) : QueueState :=
  { s with memberOf := if p ∈ s.memberOf then s.memberOf else s.memberOf ++ [p] }

/-- `parent.children.delete(this)` seen from the child: JavaScript
`Set.delete` removes the element. -/
def unregisterFrom (s : QueueState) (p : Nat) : QueueState :=
  { s with memberOf := s.memberOf.filter (fun q => q ≠ p) }

/-- `processNext()` for a queue without a parent (for a queue with a parent
the source first recomputes `this.concurrency` from the parent; that
recomputation is modelled as a separate environment transition since the
parent's state is external to `QueueState`).  Returns the new state together
with the batch of task identifiers launched by this admission pass. -/
def processNext (s : QueueState) : QueueState × List Nat :=
  if remainingCapacity s ≤ 0 ∨ s.queue = [] then (s, [])
  else
    let batchSize := min (remainingCapacity s).toNat s.queue.length
    let tasks := s.queue.take batchSize
    ({ s with queue := s.queue.drop batchSize,
              runningPromises := s.runningPromises + batchSize,
              outstanding := s.outstanding ++ tasks }, tasks)

/-- `add(...fn)`: append the submitted tasks, then either start the queue
(registering with the parent) and run an admission pass, or, if already
started, running and with spare capacity, run an admission pass. -/
def addFn (s : QueueState) (fns : List Nat) : QueueState × List Nat :=
  let s1 := { s with queue := s.queue ++ fns }
  if s1.started = false then
    let s2 := { s1 with started := true, running := true }
    let s3 := match s2.parent with
      | some p => registerWith s2 p
      | none => s2
    processNext s3
  else if s1.running = true ∧ 0 < remainingCapacity s1 then
    processNext s1
  else (s1, [])

/-- The `finally` block of `launchTask`: decrement `runningPromises`
(unconditionally — even after `stop()` reset it), then either admit more
tasks, or transition to idle and deregister from the parent.  The ghost
`outstanding` loses the completing task (modelled as its head; the
bookkeeping is identical whichever in-flight task completes). -/
def completeFn (s : QueueState) : QueueState × List Nat :=
  let s1 := { s with runningPromises := s.runningPromises - 1,
                     outstanding := s.outstanding.drop 1 }
  if s1.queue ≠ [] ∧ 0 < remainingCapacity s1 ∧ s1.running = true then
    processNext s1
  else if s1.queue = [] ∧ s1.runningPromises = 0 then
    let s2 := { s1 with running := false, started := false }
    (match s2.parent with
      | some p => unregisterFrom s2 p
      | none => s2, [])
  else (s1, [])

/-- `stop()`: clear the backlog, reset counters and flags, deregister from
the parent.  In-flight tasks (ghost `outstanding`) are NOT forgotten by the
runtime: their `finally` blocks will still run later. -/
def stopFn (s : QueueState) : QueueState :=
  let s1 := { s with queue := [], running := false, runningPromises := 0,
                     started := false }
  match s1.parent with
  | some p => unregisterFrom s1 p
  | none => s1

/-- `setConcurrency(n)` for a queue without registered children: set the
ceiling and, if running with a non-empty backlog and spare capacity, run an
admission pass.  (Propagation to children is modelled in `ParentSys`.) -/
def setConcurrencyFn (s : QueueState) (n : Int) : QueueState × List Nat :=
  let s1 := { s with concurrency := n }
  if s1.running = true ∧ s1.queue ≠ [] ∧ 0 < remainingCapacity s1 then
    processNext s1
  else (s1, [])

/-- `setParent(parent)`: returns the (possibly unchanged) state together with
`some errorMessage` when the argument is absent.  The source throws
synchronously before touching any field, so on the error path the state is
returned unchanged. -/
def setParentFn (s : QueueState) (p : Option Nat) : QueueState × Option String :=
  match p with
  | none => (s, some "Parent queue cannot be null or undefined")
  | some q => ({ s with parent := some q }, none)

/-- The loop guard of `waitStop()`: `this.queue.length || this.runningPromises > 0`
(JavaScript truthiness of the backlog length).  `waitStop` keeps polling
while this is `true` and returns as soon as it is `false`. -/
def waitStopBusy (s : QueueState) : Bool :=
  !s.queue.isEmpty || decide (0 < s.runningPromises)

/-- `executeTask(fn)`: awaits the task and suppresses any error
(`try { await fn() } catch { }`), so its own outcome is always success. -/
def executeTask (r : Except String Unit) : Except String Unit :=
  match r with
  | .ok _ => .ok ()
  | .error _ => .ok ()

/-- `updateConcurrency()` as a function of the parent's concurrency `p` and
the size `k` of the parent's `children` set:
`max(Math.max(1, Math.ceil(p / 4)), Math.ceil(p / k))`. -/
def derivedConcurrency (p : Int) (k : Nat) : Int :=
  max (max 1 (ceilDiv p 4)) (ceilDiv p (k : Int))

/-- Parent-side view of the hierarchy: the parent's concurrency and its
`children` set, each child recorded as (identifier, current concurrency).
The list is kept duplicate-free in identifiers, mirroring a JavaScript
`Set`. -/
structure ParentSys where
  parentConcurrency : Int
  children : List (Nat × Int)
deriving Repr, DecidableEq

/-- `registerChild(child)`: `children.add(child)` followed by
`updateConcurrency()` on every member of the (new) children set. -/
def registerChild (sys : ParentSys) (child : Nat × Int) : ParentSys :=
  let cs := if child.1 ∈ sys.children.map Prod.fst then sys.children
            else sys.children ++ [child]
  let upd := fun (c : Nat × Int) => (c.1, derivedConcurrency sys.parentConcurrency cs.length)
  { sys with children := cs.map upd }

/-- `unregisterChild(child)`: `children.delete(child)` — and nothing else:
the source does NOT recompute the remaining children's concurrency here. -/
def unregisterChild (sys : ParentSys) (childId : Nat) : ParentSys :=
  { sys with children := sys.children.filter (fun c => c.1 ≠ childId) }

/-- The parent's `setConcurrency(n)`: set the ceiling, then
`updateConcurrency()` on every current child. -/
def parentSetConcurrency (sys : ParentSys) (n : Int) : ParentSys :=
  { parentConcurrency := n,
    children := sys.children.map (fun c => (c.1, derivedConcurrency n sys.children.length)) }

/-- The queue chosen by `promiseAll` / `allSettled` when handed an existing
queue `q` whose identifier is `qid`: an idle (never-started or returned-to-
idle) queue is used directly; a started queue gets a fresh transient queue
constructed as `new PromiseQueue({ parent: queue })` — default concurrency 5,
parent set to the busy queue. -/
def promiseAllQueue (q : QueueState) (qid : Nat) : QueueState :=
  if q.started = true then initQueue 5 (some qid) else q

/-- Modelled from the spec (refinement comparison only): the transient-queue
concurrency the specification describes for the busy-queue case,
`max(1, remainingCapacity, ceil(concurrency / 2))`. -/
def specTransientConcurrency (q : QueueState) : Int :=
  max 1 (max (remainingCapacity q) (ceilDiv q.concurrency 2))

/-- Transition relation of a single parentless queue under task submission
and task completion only (no `stop`, no `setConcurrency`, no parent): the
setting of claim C1.  A completion is enabled only when a launched task is
actually outstanding. -/
inductive BasicStep : QueueState → QueueState → Prop
  | add (s : QueueState) (fns : List Nat) : BasicStep s (addFn s fns).1
  | complete (s : QueueState) (h : s.outstanding ≠ []) : BasicStep s (completeFn s).1

/-- States reachable from a freshly constructed parentless queue of fixed
concurrency `c` using submissions and completions only. -/
def BasicReachable (c : Int) (s : QueueState) : Prop :=
  Relation.ReflTransGen BasicStep (initQueue c none) s

/-- Full transition relation of one queue: submissions, completions, `stop`,
`setConcurrency`, `setParent` (its success path, allowed in any state, as in
the source), and the environment recomputation `derive` of a parented
queue's concurrency from its parent (arbitrary value, since the parent's
state is external). -/
inductive FullStep : QueueState → QueueState → Prop
  | add (s : QueueState) (fns : List Nat) : FullStep s (addFn s fns).1
  | complete (s : QueueState) (h : s.outstanding ≠ []) : FullStep s (completeFn s).1
  | stop (s : QueueState) : FullStep s (stopFn s)
  | setConc (s : QueueState) (n : Int) : FullStep s (setConcurrencyFn s n).1
  | setPar (s : QueueState) (p : Nat) : FullStep s (setParentFn s (some p)).1
  | derive (s : QueueState) (n : Int) (h : s.parent ≠ none) :
      FullStep s { s with concurrency := n }

/-- States reachable from `s0` under the full operation set. -/
def FullReachable (s0 s : QueueState) : Prop :=
  Relation.ReflTransGen FullStep s0 s

/-- Like `FullStep`, but `setParent` is only invoked on a queue that is not
currently started — the restriction under which the parent-membership
invariant of claim C5 holds. -/
inductive SafeStep : QueueState → QueueState → Prop
  | add (s : QueueState) (fns : List Nat) : SafeStep s (addFn s fns).1
  | complete (s : QueueState) (h : s.outstanding ≠ []) : SafeStep s (completeFn s).1
  | stop (s : QueueState) : SafeStep s (stopFn s)
  | setConc (s : QueueState) (n : Int) : SafeStep s (setConcurrencyFn s n).1
  | setPar (s : QueueState) (p : Nat) (h : s.started = false) :
      SafeStep s (setParentFn s (some p)).1
  | derive (s : QueueState) (n : Int) (h : s.parent ≠ none) :
      SafeStep s { s with concurrency := n }

/-- States reachable from a freshly constructed queue (any concurrency, any
parent option) when `setParent` is only ever called on an idle queue. -/
def SafeReachable (c : Int) (par : Option Nat) (s : QueueState) : Prop :=
  Relation.ReflTransGen SafeStep (initQueue c par) s

/-! ### Basic lemmas about one admission pass -/

theorem remainingCapacity_set_queue (s : QueueState) (q : List Nat) :
    remainingCapacity { s with queue := q } = remainingCapacity s := rfl

theorem processNext_of_blocked (s : QueueState)
    (h : remainingCapacity s ≤ 0 ∨ s.queue = []) : processNext s = (s, []) := by
  simp [processNext, h]

theorem processNext_of_open (s : QueueState)
    (h1 : 0 < remainingCapacity s) (h2 : s.queue ≠ []) :
    processNext s =
      ({ s with queue := s.queue.drop (min (remainingCapacity s).toNat s.queue.length),
                runningPromises :=
                  s.runningPromises + (min (remainingCapacity s).toNat s.queue.length : Nat),
                outstanding :=
                  s.outstanding ++ s.queue.take (min (remainingCapacity s).toNat s.queue.length) },
       s.queue.take (min (remainingCapacity s).toNat s.queue.length)) := by
  have h : ¬ (remainingCapacity s ≤ 0 ∨ s.queue = []) := by
    push_neg
    exact ⟨h1, h2⟩
  simp [processNext, h]

/-- C2 (claim theorem).  The admission pass: on every admission opportunity —
initial submission (`add` on a not-started queue), an `add` on a running
queue with spare capacity, a task completion with backlog and capacity, and
a capacity increase via `setConcurrency` — the queue runs `processNext`,
which compares `available = concurrency − runningPromises` with the backlog:
if `available ≤ 0` or the backlog is empty it changes nothing; otherwise it
removes exactly `min(available, backlog length)` tasks from the front of the
backlog (FIFO), increments `runningPromises` by that batch size, and
launches exactly that batch (each task independently; the batch list is
returned rather than awaited). -/
theorem admission_pass_characterization (s : QueueState) (fns : List Nat) (n : Int) :
    (remainingCapacity s ≤ 0 ∨ s.queue = [] → processNext s = (s, [])) ∧
    (0 < remainingCapacity s → s.queue ≠ [] →
      (processNext s).2 = s.queue.take (min (remainingCapacity s).toNat s.queue.length) ∧
      (processNext s).1.queue = s.queue.drop (min (remainingCapacity s).toNat s.queue.length) ∧
      (processNext s).1.runningPromises =
        s.runningPromises + (min (remainingCapacity s).toNat s.queue.length : Nat) ∧
      (processNext s).1.concurrency = s.concurrency ∧
      (processNext s).1.running = s.running ∧
      (processNext s).1.started = s.started) ∧
    (s.started = false → s.parent = none →
      addFn s fns =
        processNext { s with queue := s.queue ++ fns, started := true, running := true }) ∧
    (s.started = true → s.running = true → 0 < remainingCapacity s →
      addFn s fns = processNext { s with queue := s.queue ++ fns }) ∧
    ((s.queue ≠ [] ∧
        0 < remainingCapacity { s with runningPromises := s.runningPromises - 1,
                                       outstanding := s.outstanding.drop 1 } ∧
        s.running = true) →
      completeFn s =
        processNext { s with runningPromises := s.runningPromises - 1,
                             outstanding := s.outstanding.drop 1 }) ∧
    ((s.running = true ∧ s.queue ≠ [] ∧
        0 < remainingCapacity { s with concurrency := n }) →
      setConcurrencyFn s n = processNext { s with concurrency := n }) := by
  refine ⟨processNext_of_blocked s, ?_, ?_, ?_, ?_, ?_⟩
  · intro h1 h2
    rw [processNext_of_open s h1 h2]
    simp
  · intro h hp
    simp [addFn, h, hp]
  · intro h1 h2 h3
    have h3' : 0 < remainingCapacity { s with queue := s.queue ++ fns } := h3
    simp only [addFn]
    rw [if_neg (by simp [h1]), if_pos ⟨h2, h3'⟩]
  · intro h
    simp only [completeFn]
    rw [if_pos h]
  · intro h
    simp only [setConcurrencyFn]
    rw [if_pos h]

/-- A queue with three submitted-but-unstarted tasks, used by witnesses. -/
def backlogged3 : QueueState := { initQueue 2 none with queue := [0, 1, 2] }

/-- Witness for C2 at a concrete queue: concurrency 2, backlog `[0,1,2]`. -/
theorem admission_pass_characterization_witness :
    backlogged3.started = false ∧ backlogged3.parent = none ∧
    addFn backlogged3 [] =
      processNext { backlogged3 with queue := backlogged3.queue ++ [],
                                     started := true, running := true } := by
  refine ⟨rfl, rfl, ?_⟩
  exact (admission_pass_characterization backlogged3 [] 0).2.2.1 rfl rfl

/-- C9 (claim theorem).  `setParent` signals the error
"Parent queue cannot be null or undefined" exactly when the argument is
absent, and on that path leaves the state untouched; with a present parent
it records the association and signals nothing.  (All other operations of
the model are total functions with no error channel, mirroring the absence
of any other `throw` in the source.) -/
theorem setParent_validation (s : QueueState) (p : Nat) :
    (setParentFn s none).2 = some "Parent queue cannot be null or undefined" ∧
    (setParentFn s none).1 = s ∧
    (setParentFn s (some p)).2 = none ∧
    (setParentFn s (some p)).1 = { s with parent := some p } :=
  ⟨rfl, rfl, rfl, rfl⟩

/-- C6 (claim theorem).  `stop()` leaves the backlog empty, the in-flight
counter at zero, both flags false, removes the queue from its parent's
children set when it had one, and makes the `waitStop` guard false, so an
immediately following `waitStop` returns without entering its polling
loop. -/
theorem stop_resets_to_idle (s : QueueState) :
    (stopFn s).queue = [] ∧ (stopFn s).runningPromises = 0 ∧
    (stopFn s).running = false ∧ (stopFn s).started = false ∧
    (∀ p : Nat, s.parent = some p → p ∉ (stopFn s).memberOf) ∧
    waitStopBusy (stopFn s) = false := by
  cases hp : s.parent <;>
    simp [stopFn, hp, unregisterFrom, waitStopBusy, List.mem_filter]

/-- A queue mid-flight (two running tasks, one backlogged) registered with
parent 4, used by the C6 witness. -/
def midFlight : QueueState :=
  { queue := [9], concurrency := 2, runningPromises := 2, running := true,
    started := true, parent := some 4, memberOf := [4], outstanding := [7, 8] }

/-- Witness for C6: a stopped queue that was mid-flight, with parent 4. -/
theorem stop_resets_to_idle_witness :
    midFlight.parent = some 4 ∧ (4 : Nat) ∉ (stopFn midFlight).memberOf := by
  exact ⟨rfl, (stop_resets_to_idle midFlight).2.2.2.2.1 4 rfl⟩

/-- The state reached by: submit one task at concurrency 1, `stop()` while it
is in flight, then let that task's `finally` block run. -/
def stoppedThenCompleted : QueueState :=
  (completeFn (stopFn (addFn (initQueue 1 none) [0]).1)).1

/-- C8 (counterexample).  The claim says `waitStop` returns iff the backlog
is empty AND the in-flight count is zero.  At the reachable state
`stoppedThenCompleted`, the backlog is empty, the counter is −1 (not zero),
and the `waitStop` guard is already false, so `waitStop` returns: the
"only if" direction of the claim is false on the code. -/
theorem waitStop_returns_with_nonzero_counter :
    FullReachable (initQueue 1 none) stoppedThenCompleted ∧
    stoppedThenCompleted.queue = [] ∧
    stoppedThenCompleted.runningPromises = -1 ∧
    ¬ (stoppedThenCompleted.runningPromises = 0) ∧
    waitStopBusy stoppedThenCompleted = false := by
  refine ⟨?_, by decide, by decide, by decide, by decide⟩
  refine Relation.ReflTransGen.tail (Relation.ReflTransGen.tail
    (Relation.ReflTransGen.single (FullStep.add (initQueue 1 none) [0]))
    (FullStep.stop _)) (FullStep.complete _ (by decide))

/-- C8 (amended claim theorem).  The `waitStop` guard is false exactly when
the backlog is empty and the in-flight counter is NOT POSITIVE; whenever the
counter is non-negative (in particular in every execution that never calls
`stop`), this coincides with the claim's "backlog empty and in-flight count
zero". -/
theorem waitStop_guard_iff (s : QueueState) :
    (waitStopBusy s = false ↔ s.queue = [] ∧ s.runningPromises ≤ 0) ∧
    (0 ≤ s.runningPromises →
      (waitStopBusy s = false ↔ s.queue = [] ∧ s.runningPromises = 0)) := by
  constructor
  · simp [waitStopBusy, List.isEmpty_iff]
  · intro h
    simp only [waitStopBusy, Bool.or_eq_false_iff, Bool.not_eq_false',
      List.isEmpty_iff, decide_eq_false_iff_not, not_lt]
    constructor
    · rintro ⟨hq, hle⟩
      exact ⟨hq, le_antisymm hle h⟩
    · rintro ⟨hq, hz⟩
      exact ⟨hq, le_of_eq hz⟩

/-- Witness for C8 (amended) at an idle queue. -/
theorem waitStop_guard_iff_witness :
    (0 : Int) ≤ (initQueue 3 none).runningPromises ∧
    (waitStopBusy (initQueue 3 none) = false ↔
      (initQueue 3 none).queue = [] ∧ (initQueue 3 none).runningPromises = 0) :=
  ⟨by decide, (waitStop_guard_iff (initQueue 3 none)).2 (by decide)⟩

/-! ### Hierarchical concurrency derivation (claims C3, C4) -/

theorem registerChild_mem_deriv (sys : ParentSys) (child : Nat × Int) :
    ∀ c ∈ (registerChild sys child).children,
      c.2 = derivedConcurrency sys.parentConcurrency
              (registerChild sys child).children.length := by
  intro c hc
  simp only [registerChild, List.length_map] at hc ⊢
  obtain ⟨x, hx, rfl⟩ := List.mem_map.mp hc
  rfl

/-- The parent system obtained by registering children 0 and 1 under a parent
of concurrency 8 and then deregistering child 1.  Registration leaves both
children at derived concurrency 4 (`max(1, ⌈8/4⌉, ⌈8/2⌉) = 4`); the
deregistration removes child 1 and touches nothing else. -/
def parentAfterLeave : ParentSys :=
  unregisterChild (registerChild (registerChild ⟨8, []⟩ (0, 5)) (1, 5)) 1

/-- C3 (counterexample).  After child 1 deregisters, the remaining child 0
keeps its stale concurrency 4, while the claimed formula
`max(1, ceil(8/4), ceil(8/1)) = 8` would demand 8: the source's
`unregisterChild` deletes the child from the set and does NOT recompute the
remaining children's concurrency. -/
theorem deregistration_skips_recompute :
    parentAfterLeave.children = [(0, 4)] ∧
    derivedConcurrency parentAfterLeave.parentConcurrency
      parentAfterLeave.children.length = 8 ∧
    ¬ (∀ c ∈ parentAfterLeave.children,
        c.2 = derivedConcurrency parentAfterLeave.parentConcurrency
                parentAfterLeave.children.length) := by
  refine ⟨by decide, by decide, by decide⟩

/-- C3 (amended claim theorem).  When K children share one parent of
concurrency P, the derivation formula of the source is
`max(max(1, ceil(P/4)), ceil(P/K))`, equal to the claimed
`max(1, ceil(P/4), ceil(P/K))`; it is applied to every current child
immediately on any child's registration and on any change of the parent's
concurrency.  On a child's deregistration, however, the child is only
removed from the set: the remaining children are NOT recomputed (each will
recompute lazily at its own next admission pass). -/
theorem child_concurrency_rebalance (sys : ParentSys) (child : Nat × Int)
    (n : Int) (cid : Nat) (p : Int) (k : Nat) :
    (∀ c ∈ (registerChild sys child).children,
      c.2 = derivedConcurrency sys.parentConcurrency
              (registerChild sys child).children.length) ∧
    (∀ c ∈ (parentSetConcurrency sys n).children,
      c.2 = derivedConcurrency n sys.children.length) ∧
    (unregisterChild sys cid).children = sys.children.filter (fun c => c.1 ≠ cid) ∧
    derivedConcurrency p k = max 1 (max (ceilDiv p 4) (ceilDiv p (k : Int))) := by
  refine ⟨registerChild_mem_deriv sys child, ?_, rfl, ?_⟩
  · intro c hc
    simp only [parentSetConcurrency] at hc
    obtain ⟨x, hx, rfl⟩ := List.mem_map.mp hc
    rfl
  · exact max_assoc 1 (ceilDiv p 4) (ceilDiv p (k : Int))

/-- Witness for C3 (amended): registering child 1 under a parent of
concurrency 8 that already has child 0 leaves both children at
`max(1, ⌈8/4⌉, ⌈8/2⌉) = 4`. -/
theorem child_concurrency_rebalance_witness :
    ((1 : Nat), (4 : Int)) ∈ (registerChild ⟨8, [(0, 8)]⟩ (1, 5)).children ∧
    ((1 : Nat), (4 : Int)).2 =
      derivedConcurrency 8 (registerChild ⟨8, [(0, 8)]⟩ (1, 5)).children.length := by
  refine ⟨by decide, ?_⟩
  exact (child_concurrency_rebalance ⟨8, [(0, 8)]⟩ (1, 5) 0 0 0 0).1 _ (by decide)

/-- A queue saturated at its ceiling: concurrency 10, ten tasks in flight,
no spare capacity.  This is the busy queue handed to `promiseAll`. -/
def busySaturated : QueueState :=
  { queue := [], concurrency := 10, runningPromises := 10, running := true,
    started := true, parent := none, memberOf := [],
    outstanding := [0, 1, 2, 3, 4, 5, 6, 7, 8, 9] }

/-- C4 (counterexample).  Handing the saturated queue (concurrency 10,
remaining capacity 0) to `promiseAll`: the source builds
`new PromiseQueue({ parent: queue })` — a transient CHILD queue with the
default concurrency 5 — and on that child's first admission the parent-child
formula yields `max(1, ⌈10/4⌉, ⌈10/1⌉) = 10`.  The claimed formula
`max(1, remainingCapacity, ceil(concurrency/2))` yields 5 instead, so the
claim's description of the transient queue's concurrency is false on the
code. -/
theorem transient_queue_not_spec_formula :
    busySaturated.started = true ∧
    promiseAllQueue busySaturated 3 = initQueue 5 (some 3) ∧
    (registerChild ⟨busySaturated.concurrency, []⟩ (3, 5)).children = [(3, 10)] ∧
    specTransientConcurrency busySaturated = 5 ∧
    (10 : Int) ≠ 5 := by
  refine ⟨by decide, by decide, by decide, by decide, by decide⟩

/-- C4 (amended claim theorem).  `promiseAll` (and `allSettled`) handed a
queue instance: if it is idle (`started = false`) it is used directly; if it
is started, work is never enqueued into it — a fresh transient queue is
created with the busy queue as PARENT and the default concurrency 5, and on
its first admission its concurrency is derived by the parent-child formula
`max(1, ceil(P/4), ceil(P/K))` over the busy queue's concurrency P and
child count K (not from the busy queue's remaining capacity). -/
theorem promiseAll_busy_queue_choice (q : QueueState) (qid : Nat)
    (sys : ParentSys) (child : Nat × Int) :
    (q.started = false → promiseAllQueue q qid = q) ∧
    (q.started = true → promiseAllQueue q qid = initQueue 5 (some qid)) ∧
    (∀ c ∈ (registerChild sys child).children,
      c.2 = derivedConcurrency sys.parentConcurrency
              (registerChild sys child).children.length) := by
  refine ⟨?_, ?_, registerChild_mem_deriv sys child⟩
  · intro h
    simp [promiseAllQueue, h]
  · intro h
    simp [promiseAllQueue, h]

/-- Witness for C4 (amended): the saturated queue is replaced by a fresh
child queue; an idle queue is reused as-is. -/
theorem promiseAll_busy_queue_choice_witness :
    busySaturated.started = true ∧
    promiseAllQueue busySaturated 7 = initQueue 5 (some 7) ∧
    (initQueue 4 none).started = false ∧
    promiseAllQueue (initQueue 4 none) 7 = initQueue 4 none := by
  refine ⟨rfl, (promiseAll_busy_queue_choice busySaturated 7 ⟨0, []⟩ (0, 0)).2.1 rfl,
    rfl, (promiseAll_busy_queue_choice (initQueue 4 none) 7 ⟨0, []⟩ (0, 0)).1 rfl⟩

/-! ### The in-flight counting invariant (claim C1) -/

/-- Counting invariant of a parentless queue of fixed concurrency `c`: the
ceiling is `c`, the counter agrees with the number of outstanding launched
tasks, and it never exceeds the ceiling. -/
def countInv (c : Int) (s : QueueState) : Prop :=
  s.concurrency = c ∧ s.parent = none ∧
  s.runningPromises = (s.outstanding.length : Int) ∧ s.runningPromises ≤ c

theorem processNext_batch_le (s : QueueState) :
    ((processNext s).2.length : Int) ≤ max (remainingCapacity s) 0 := by
  by_cases hb : remainingCapacity s ≤ 0 ∨ s.queue = []
  · rw [processNext_of_blocked s hb]
    simp
  · push_neg at hb
    rw [processNext_of_open s hb.1 hb.2]
    simp only [remainingCapacity] at hb
    simp only [List.length_take, remainingCapacity]
    push_cast
    omega

theorem countInv_processNext {c : Int} {s : QueueState} (h : countInv c s) :
    countInv c (processNext s).1 := by
  obtain ⟨h1, h2, h3, h4⟩ := h
  by_cases hb : remainingCapacity s ≤ 0 ∨ s.queue = []
  · rw [processNext_of_blocked s hb]
    exact ⟨h1, h2, h3, h4⟩
  · push_neg at hb
    have hcap : 0 < s.concurrency - s.runningPromises := hb.1
    rw [processNext_of_open s hb.1 hb.2]
    refine ⟨h1, h2, ?_, ?_⟩
    · simp only [List.length_append, List.length_take]
      push_cast
      omega
    · have := Int.toNat_of_nonneg (le_of_lt hcap)
      simp only [remainingCapacity]
      omega

theorem countInv_addFn {c : Int} {s : QueueState} (h : countInv c s)
    (fns : List Nat) : countInv c (addFn s fns).1 := by
  obtain ⟨h1, h2, h3, h4⟩ := h
  simp only [addFn, h2]
  split
  · exact countInv_processNext ⟨h1, rfl, h3, h4⟩
  · split
    · exact countInv_processNext ⟨h1, rfl, h3, h4⟩
    · exact ⟨h1, rfl, h3, h4⟩

theorem countInv_completeFn {c : Int} {s : QueueState} (h : countInv c s)
    (hout : s.outstanding ≠ []) : countInv c (completeFn s).1 := by
  obtain ⟨h1, h2, h3, h4⟩ := h
  have hlen : 0 < s.outstanding.length := List.length_pos.mpr hout
  have hinv1 : countInv c { s with runningPromises := s.runningPromises - 1,
                                   outstanding := s.outstanding.drop 1,
                                   parent := none } := by
    refine ⟨h1, rfl, ?_, by simp only; omega⟩
    simp only [List.length_drop]
    omega
  simp only [completeFn, h2]
  split
  · exact countInv_processNext hinv1
  · split
    · exact ⟨hinv1.1, rfl, hinv1.2.2.1, hinv1.2.2.2⟩
    · exact hinv1

theorem countInv_reachable (c : Int) (hc : 0 ≤ c) (s : QueueState)
    (h : BasicReachable c s) : countInv c s := by
  induction h with
  | refl => exact ⟨rfl, rfl, by simp [initQueue], hc⟩
  | tail h1 h2 ih =>
    cases h2 with
    | add fns => exact countInv_addFn ih fns
    | complete hout => exact countInv_completeFn ih hout

/-- C1 (claim theorem).  In every state reachable from a fresh parentless
queue of fixed concurrency `c ≥ 0` by submissions and completions alone (no
`stop`, no `setConcurrency`), the in-flight counter `runningPromises` never
exceeds the concurrency ceiling, and an admission pass never launches more
tasks than `remainingCapacity()` permits. -/
theorem inflight_never_exceeds_concurrency (c : Int) (hc : 0 ≤ c)
    (s : QueueState) (h : BasicReachable c s) :
    s.runningPromises ≤ s.concurrency ∧
    ((processNext s).2.length : Int) ≤ max (remainingCapacity s) 0 := by
  obtain ⟨h1, _, _, h4⟩ := countInv_reachable c hc s h
  rw [h1]
  exact ⟨h4, processNext_batch_le s⟩

/-- The queue reached by submitting four tasks to a fresh queue of
concurrency 3: three launch, one stays backlogged. -/
def threeOfFour : QueueState := (addFn (initQueue 3 none) [0, 1, 2, 3]).1

/-- Witness for C1 at the reachable state `threeOfFour`. -/
theorem inflight_never_exceeds_concurrency_witness :
    threeOfFour.runningPromises ≤ threeOfFour.concurrency ∧
    ((processNext threeOfFour).2.length : Int) ≤ max (remainingCapacity threeOfFour) 0 :=
  inflight_never_exceeds_concurrency 3 (by decide) threeOfFour
    (Relation.ReflTransGen.single (BasicStep.add (initQueue 3 none) [0, 1, 2, 3]))

/-! ### Parent-children membership (claim C5) -/

theorem processNext_fields (s : QueueState) :
    (processNext s).1.memberOf = s.memberOf ∧ (processNext s).1.started = s.started ∧
    (processNext s).1.parent = s.parent ∧ (processNext s).1.running = s.running := by
  by_cases hb : remainingCapacity s ≤ 0 ∨ s.queue = []
  · rw [processNext_of_blocked s hb]
    exact ⟨rfl, rfl, rfl, rfl⟩
  · push_neg at hb
    rw [processNext_of_open s hb.1 hb.2]
    exact ⟨rfl, rfl, rfl, rfl⟩

/-- Membership invariant: the queue sits in exactly the children set of its
current parent, and only while started. -/
def memInv (s : QueueState) : Prop :=
  s.memberOf = if s.started = true then s.parent.toList else []

theorem memInv_processNext {s : QueueState} (h : memInv s) :
    memInv (processNext s).1 := by
  unfold memInv at h ⊢
  obtain ⟨hm, hs, hp, _⟩ := processNext_fields s
  rw [hm, hs, hp]
  exact h

theorem memInv_addFn {s : QueueState} (h : memInv s) (fns : List Nat) :
    memInv (addFn s fns).1 := by
  unfold memInv at h
  simp only [addFn]
  split
  · rename_i hst
    have hst' : s.started = false := hst
    have hm : s.memberOf = [] := by rw [h, hst']; simp
    cases hp : s.parent with
    | none =>
      apply memInv_processNext
      unfold memInv
      simp [hp, hm]
    | some p =>
      apply memInv_processNext
      unfold memInv
      simp [hp, registerWith, hm]
  · split
    · apply memInv_processNext
      unfold memInv
      simpa using h
    · unfold memInv
      simpa using h

theorem memInv_completeFn {s : QueueState} (h : memInv s) :
    memInv (completeFn s).1 := by
  unfold memInv at h
  simp only [completeFn]
  split
  · apply memInv_processNext
    unfold memInv
    simpa using h
  · split
    · cases hp : s.parent with
      | none =>
        have hm : s.memberOf = [] := by rw [h, hp]; simp
        unfold memInv
        simp [hp, hm]
      | some p =>
        unfold memInv
        cases hst : s.started with
        | false =>
          have hm : s.memberOf = [] := by rw [h, hst]; simp
          simp [hp, unregisterFrom, hm]
        | true =>
          have hm : s.memberOf = [p] := by rw [h, hst, hp]; simp
          simp [hp, unregisterFrom, hm]
    · unfold memInv
      simpa using h

theorem memInv_stopFn {s : QueueState} (h : memInv s) : memInv (stopFn s) := by
  unfold memInv at h
  simp only [stopFn]
  cases hp : s.parent with
  | none =>
    have hm : s.memberOf = [] := by rw [h, hp]; simp
    unfold memInv
    simp [hp, hm]
  | some p =>
    unfold memInv
    cases hst : s.started with
    | false =>
      have hm : s.memberOf = [] := by rw [h, hst]; simp
      simp [hp, unregisterFrom, hm]
    | true =>
      have hm : s.memberOf = [p] := by rw [h, hst, hp]; simp
      simp [hp, unregisterFrom, hm]

theorem memInv_setConcurrencyFn {s : QueueState} (h : memInv s) (n : Int) :
    memInv (setConcurrencyFn s n).1 := by
  unfold memInv at h
  simp only [setConcurrencyFn]
  split
  · apply memInv_processNext
    unfold memInv
    simpa using h
  · unfold memInv
    simpa using h

theorem memInv_safeReachable (c : Int) (par : Option Nat) (s : QueueState)
    (h : SafeReachable c par s) : memInv s := by
  induction h with
  | refl => simp [memInv, initQueue]
  | tail h1 h2 ih =>
    cases h2 with
    | add fns => exact memInv_addFn ih fns
    | complete hout => exact memInv_completeFn ih
    | stop => exact memInv_stopFn ih
    | setConc n => exact memInv_setConcurrencyFn ih n
    | setPar p hst =>
      rename_i t
      unfold memInv at ih ⊢
      have hm : t.memberOf = [] := by rw [ih, hst]; simp
      simp [setParentFn, hst, hm]
    | derive n hpar =>
      unfold memInv at ih ⊢
      simpa using ih

/-- C5 (amended claim theorem).  In every state reachable from a fresh queue
under the full operation set RESTRICTED so that `setParent` is only invoked
while the queue is idle (`started = false`), a queue is a member of a
parent's children set iff it is currently started and that parent is its
current parent; membership is added when the queue starts processing its
first submitted tasks, and removed when it returns to idle or is stopped.
(Without the restriction the invariant is false — see the counterexample:
the source's `setParent` records the association without registering, even
on a started queue.) -/
theorem children_membership_invariant (c : Int) (par : Option Nat)
    (s : QueueState) (h : SafeReachable c par s) :
    ∀ p : Nat, p ∈ s.memberOf ↔ (s.started = true ∧ s.parent = some p) := by
  have hm := memInv_safeReachable c par s h
  intro p
  rw [memInv] at hm
  rw [hm]
  cases hst : s.started <;> cases hp : s.parent <;>
    simp [Option.toList, eq_comm]

/-- Witness for C5 (amended) at a freshly constructed queue with parent 4. -/
theorem children_membership_invariant_witness :
    (4 : Nat) ∈ (initQueue 2 (some 4)).memberOf ↔
      ((initQueue 2 (some 4)).started = true ∧
        (initQueue 2 (some 4)).parent = some 4) :=
  children_membership_invariant 2 (some 4) _ Relation.ReflTransGen.refl 4

/-- A queue that started without a parent and was then given parent 7 by
`setParent` while still active. -/
def activeReparented : QueueState :=
  (setParentFn (addFn (initQueue 1 none) [0]).1 (some 7)).1

/-- C5 (counterexample).  `activeReparented` is reachable under the full
operation set, is started with parent 7, yet is NOT a member of 7's children
set: the biconditional of the claim fails, because `setParent` on an
already-started queue records the association without registering. -/
theorem membership_invariant_fails_on_live_setParent :
    FullReachable (initQueue 1 none) activeReparented ∧
    activeReparented.started = true ∧
    activeReparented.parent = some 7 ∧
    (7 : Nat) ∉ activeReparented.memberOf := by
  refine ⟨?_, by decide, by decide, by decide⟩
  exact Relation.ReflTransGen.tail
    (Relation.ReflTransGen.single (FullStep.add (initQueue 1 none) [0]))
    (FullStep.setPar _ 7)

/-! ### The counter after `stop()` (claim C10) -/

/-- Run the completion bookkeeping of `k` in-flight tasks, one after the
other. -/
def completesN : Nat → QueueState → QueueState
  | 0, s => s
  | k + 1, s => completesN k (completeFn s).1

theorem stopFn_fields (s : QueueState) :
    (stopFn s).concurrency = s.concurrency ∧ (stopFn s).parent = s.parent ∧
    (stopFn s).outstanding = s.outstanding := by
  cases hp : s.parent <;> simp [stopFn, unregisterFrom, hp]

theorem complete_on_drained (u : QueueState) (hq : u.queue = [])
    (hrp : u.runningPromises ≤ 0) :
    (completeFn u).1 = { u with runningPromises := u.runningPromises - 1,
                                outstanding := u.outstanding.drop 1 } := by
  simp only [completeFn]
  rw [if_neg (by simp [hq]), if_neg (by simp [hq]; omega)]

theorem completesN_drained (k : Nat) (u : QueueState) (hq : u.queue = [])
    (hrp : u.runningPromises ≤ 0) :
    (completesN k u).runningPromises = u.runningPromises - (k : Int) ∧
    (completesN k u).queue = [] ∧
    (completesN k u).concurrency = u.concurrency ∧
    (completesN k u).started = u.started ∧
    (completesN k u).running = u.running ∧
    (completesN k u).parent = u.parent := by
  induction k generalizing u with
  | zero => simp [completesN, hq]
  | succ k ih =>
    rw [completesN, complete_on_drained u hq hrp]
    obtain ⟨a, b, c, d, e, f⟩ := ih { u with runningPromises := u.runningPromises - 1, outstanding := u.outstanding.drop 1 } hq (by show u.runningPromises - 1 ≤ 0; omega)
    refine ⟨?_, b, c, d, e, f⟩
    rw [a]
    show u.runningPromises - 1 - (k : Int) = u.runningPromises - ((k : Nat) + 1 : Nat)
    push_cast
    ring

/-- C10 (claim theorem).  If `stop()` is called while `k > 0` tasks are in
flight, each of those tasks' later completions still decrements the counter
that `stop()` reset to zero; after all of them complete, `runningPromises`
is `-k`, `remainingCapacity()` is `concurrency + k` — strictly above the
ceiling — and a subsequent submission of at least `concurrency + k` tasks
admits `concurrency + k` tasks in one pass, more than the ceiling. -/
theorem stop_breaks_counter (s : QueueState) (k : Nat) (hk : 0 < k)
    (hrp : s.runningPromises = (k : Int)) (houts : s.outstanding.length = k)
    (hpar : s.parent = none) (hc : 0 ≤ s.concurrency) (fns : List Nat)
    (hfns : s.concurrency + (k : Int) ≤ (fns.length : Int)) :
    (completesN k (stopFn s)).runningPromises = -(k : Int) ∧
    remainingCapacity (completesN k (stopFn s)) = s.concurrency + (k : Int) ∧
    (completesN k (stopFn s)).concurrency <
      remainingCapacity (completesN k (stopFn s)) ∧
    ((addFn (completesN k (stopFn s)) fns).2.length : Int) =
      s.concurrency + (k : Int) ∧
    (completesN k (stopFn s)).concurrency <
      ((addFn (completesN k (stopFn s)) fns).2.length : Int) := by
  obtain ⟨hcon, hparent, houtst⟩ := stopFn_fields s
  have hstop := stop_resets_to_idle s
  obtain ⟨ha, hb, hcN, hd, he, hf⟩ :=
    completesN_drained k (stopFn s) hstop.1 (le_of_eq hstop.2.1)
  have hrp' : (completesN k (stopFn s)).runningPromises = -(k : Int) := by
    rw [ha, hstop.2.1]
    ring
  have hcap : remainingCapacity (completesN k (stopFn s)) =
      s.concurrency + (k : Int) := by
    simp only [remainingCapacity, hrp', hcN, hcon]
    ring
  have hlen : ((addFn (completesN k (stopFn s)) fns).2.length : Int) =
      s.concurrency + (k : Int) := by
    have hadd : addFn (completesN k (stopFn s)) fns =
        processNext { completesN k (stopFn s) with
          queue := (completesN k (stopFn s)).queue ++ fns,
          started := true, running := true } := by
      simp only [addFn]
      rw [if_pos (by simp [hd, hstop.2.2.2])]
      have : (completesN k (stopFn s)).parent = none := by rw [hf, hparent, hpar]
      simp [this]
    rw [hadd]
    have hq : ({ completesN k (stopFn s) with
        queue := (completesN k (stopFn s)).queue ++ fns,
        started := true, running := true } : QueueState).queue = fns := by
      simp [hb]
    have hcap2 : 0 < remainingCapacity { completesN k (stopFn s) with
        queue := (completesN k (stopFn s)).queue ++ fns,
        started := true, running := true } := by
      simp only [remainingCapacity]
      simp only [hrp', hcN, hcon]
      omega
    have hqne : ({ completesN k (stopFn s) with
        queue := (completesN k (stopFn s)).queue ++ fns,
        started := true, running := true } : QueueState).queue ≠ [] := by
      rw [hq]
      intro hnil
      rw [hnil] at hfns
      simp at hfns
      omega
    rw [processNext_of_open _ hcap2 hqne]
    simp only [List.length_take, hb, List.nil_append, remainingCapacity, hcN, hcon, hrp']
    push_cast
    omega
  refine ⟨hrp', hcap, ?_, hlen, ?_⟩
  · rw [hcap, hcN, hcon]
    omega
  · rw [hlen, hcN, hcon]
    omega

/-- Witness for C10: concurrency 3, three tasks in flight when `stop()` is
called, then six further tasks submitted — all six admitted in one pass. -/
theorem stop_breaks_counter_witness :
    (0 : Int) ≤ threeOfFour.concurrency ∧
    (completesN 3 (stopFn threeOfFour)).runningPromises = -((3 : Nat) : Int) ∧
    ((addFn (completesN 3 (stopFn threeOfFour)) [10, 11, 12, 13, 14, 15]).2.length : Int) =
      threeOfFour.concurrency + ((3 : Nat) : Int) ∧
    (completesN 3 (stopFn threeOfFour)).concurrency <
      ((addFn (completesN 3 (stopFn threeOfFour)) [10, 11, 12, 13, 14, 15]).2.length : Int) := by
  have h := stop_breaks_counter threeOfFour 3 (by decide) (by decide) (by decide)
    (by decide) (by decide) [10, 11, 12, 13, 14, 15] (by decide)
  exact ⟨by decide, h.1, h.2.2.2.1, h.2.2.2.2⟩

/-! ### Draining a queue to completion (claim C7) -/

/-- Completion bookkeeping as a function of the completing task's outcome.
In the source, `launchTask` runs `executeTask` inside try/catch and performs
all bookkeeping in `finally`; the outcome is discarded before any
bookkeeping, so the transition does not depend on it at all. -/
def completeWithOutcome (_outcome : Except String Unit) (s : QueueState) :
    QueueState × List Nat :=
  completeFn s

/-- Run the queue until no launched task remains, completing tasks in launch
order, collecting the identifiers of completed tasks; `fuel` bounds the
number of completions. -/
def drainAux : Nat → QueueState → List Nat → List Nat × QueueState
  | 0, s, acc => (acc, s)
  | fuel + 1, s, acc =>
    match s.outstanding with
    | [] => (acc, s)
    | t :: _ => drainAux fuel (completeFn s).1 (acc ++ [t])

/-- Drain with fuel equal to the number of pending plus in-flight tasks —
exactly the number of completions still to come. -/
def drain (s : QueueState) : List Nat × QueueState :=
  drainAux (s.queue.length + s.outstanding.length) s []

theorem drainAux_succ_nil (fuel : Nat) (s : QueueState) (acc : List Nat)
    (h : s.outstanding = []) : drainAux (fuel + 1) s acc = (acc, s) := by
  simp [drainAux, h]

theorem drainAux_succ_cons (fuel : Nat) (s : QueueState) (acc : List Nat)
    (t : Nat) (rest : List Nat) (h : s.outstanding = t :: rest) :
    drainAux (fuel + 1) s acc = drainAux fuel (completeFn s).1 (acc ++ [t]) := by
  simp [drainAux, h]

/-- Invariant of the draining runs started by a single `add` on a fresh
parentless queue of concurrency `c > 0`: the counter tracks the outstanding
tasks and stays within the ceiling; completed, in-flight and backlogged
tasks partition the submitted list in order; and whenever the backlog is
non-empty the queue is saturated and still running. -/
def drainInv (c : Int) (fns acc : List Nat) (s : QueueState) : Prop :=
  0 < c ∧ s.parent = none ∧ s.concurrency = c ∧
  s.runningPromises = (s.outstanding.length : Int) ∧
  s.runningPromises ≤ c ∧
  acc ++ s.outstanding ++ s.queue = fns ∧
  (s.queue = [] ∨ (s.running = true ∧ s.runningPromises = c))

theorem drainInv_add (c : Int) (hc : 0 < c) (fns : List Nat) :
    drainInv c fns [] (addFn (initQueue c none) fns).1 := by
  have hstep : addFn (initQueue c none) fns =
      processNext { initQueue c none with queue := fns, started := true, running := true } := by
    simp [addFn, initQueue]
  by_cases hfns : fns = []
  · subst hfns
    rw [hstep, processNext_of_blocked _ (Or.inr rfl)]
    exact ⟨hc, rfl, rfl, rfl, le_of_lt hc, rfl, Or.inl rfl⟩
  · have hcap : 0 < remainingCapacity { initQueue c none with queue := fns, started := true, running := true } := by
      simpa [remainingCapacity, initQueue] using hc
    rw [hstep, processNext_of_open _ hcap hfns]
    have hcapeq : remainingCapacity { initQueue c none with queue := fns, started := true, running := true } = c := by
      simp [remainingCapacity, initQueue]
    rw [hcapeq]
    refine ⟨hc, rfl, rfl, ?_, ?_, ?_, ?_⟩
    · show (0 : Int) + ((min c.toNat fns.length : Nat) : Int) =
        (((([] : List Nat) ++ fns.take (min c.toNat fns.length)).length : Nat) : Int)
      simp only [List.nil_append, List.length_take]
      push_cast
      omega
    · show (0 : Int) + ((min c.toNat fns.length : Nat) : Int) ≤ c
      push_cast
      omega
    · show ([] : List Nat) ++ (([] : List Nat) ++ fns.take (min c.toNat fns.length)) ++
        fns.drop (min c.toNat fns.length) = fns
      simp [List.take_append_drop]
    · by_cases hdrop : fns.drop (min c.toNat fns.length) = []
      · exact Or.inl hdrop
      · refine Or.inr ⟨rfl, ?_⟩
        have hlt : min c.toNat fns.length < fns.length := by
          rcases Nat.lt_or_ge (min c.toNat fns.length) fns.length with h | h
          · exact h
          · exact absurd (List.drop_eq_nil_of_le h) hdrop
        show (0 : Int) + ((min c.toNat fns.length : Nat) : Int) = c
        push_cast
        omega

theorem drainInv_step {c : Int} {fns acc : List Nat} {s : QueueState}
    (h : drainInv c fns acc s) (t : Nat) (rest : List Nat)
    (hout : s.outstanding = t :: rest) :
    drainInv c fns (acc ++ [t]) (completeFn s).1 ∧
    (completeFn s).1.queue.length + (completeFn s).1.outstanding.length + 1 =
      s.queue.length + s.outstanding.length := by
  obtain ⟨hc, hpar, hcon, hrp, hle, hconcat, hdisj⟩ := h
  have hlen : s.outstanding.length = rest.length + 1 := by rw [hout]; rfl
  have hdrop1 : s.outstanding.drop 1 = rest := by rw [hout]; rfl
  by_cases hql : s.queue = []
  · -- no backlog: the completion only decrements (and possibly goes idle)
    have hfirst : ¬ (s.queue ≠ [] ∧ 0 < remainingCapacity { s with runningPromises := s.runningPromises - 1, outstanding := s.outstanding.drop 1 } ∧ s.running = true) := by
      simp [hql]
    by_cases hrest : rest = []
    · have hzero : s.runningPromises - 1 = 0 := by
        rw [hrp, hlen, hrest]
        simp
      have hres : (completeFn s).1 = { s with runningPromises := s.runningPromises - 1, outstanding := s.outstanding.drop 1, running := false, started := false } := by
        simp only [completeFn]
        rw [if_neg hfirst, if_pos ⟨hql, hzero⟩]
        simp [hpar]
      rw [hres, hdrop1]
      subst hrest
      refine ⟨⟨hc, hpar, hcon, ?_, ?_, ?_, Or.inl hql⟩, ?_⟩
      · show s.runningPromises - 1 = ((List.length ([] : List Nat) : Nat) : Int)
        simpa using hzero
      · show s.runningPromises - 1 ≤ c
        omega
      · show (acc ++ [t]) ++ [] ++ s.queue = fns
        rw [hout, hql] at hconcat
        rw [hql]
        simpa using hconcat
      · show s.queue.length + (List.length ([] : List Nat)) + 1 =
          s.queue.length + s.outstanding.length
        simp only [List.length_nil]
        omega
    · have hrl : s.runningPromises - 1 = (rest.length : Int) := by
        rw [hrp, hlen]
        push_cast
        ring
      have hposr : 0 < rest.length := List.length_pos.mpr hrest
      have hnz : ¬ (s.queue = [] ∧ s.runningPromises - 1 = 0) := by
        intro hpair
        have h2 := hpair.2
        rw [hrl] at h2
        omega
      have hres : (completeFn s).1 = { s with runningPromises := s.runningPromises - 1, outstanding := s.outstanding.drop 1 } := by
        simp only [completeFn]
        rw [if_neg hfirst, if_neg hnz]
      rw [hres, hdrop1]
      refine ⟨⟨hc, hpar, hcon, hrl, ?_, ?_, Or.inl hql⟩, ?_⟩
      · show s.runningPromises - 1 ≤ c
        omega
      · show (acc ++ [t]) ++ rest ++ s.queue = fns
        rw [← hconcat, hout]
        simp
      · show s.queue.length + rest.length + 1 = s.queue.length + s.outstanding.length
        omega
  · -- backlog present: the queue is saturated and re-admits one task
    obtain ⟨hrun, hsat⟩ := hdisj.resolve_left hql
    have hcap1 : remainingCapacity { s with runningPromises := s.runningPromises - 1, outstanding := s.outstanding.drop 1 } = 1 := by
      show s.concurrency - (s.runningPromises - 1) = 1
      rw [hcon, hsat]
      ring
    have hlq : 0 < s.queue.length := List.length_pos.mpr hql
    have hfirstcond : (s.queue ≠ [] ∧ 0 < remainingCapacity { s with runningPromises := s.runningPromises - 1, outstanding := s.outstanding.drop 1 } ∧ s.running = true) :=
      ⟨hql, by rw [hcap1]; norm_num, hrun⟩
    have hres : completeFn s = processNext { s with runningPromises := s.runningPromises - 1, outstanding := s.outstanding.drop 1 } := by
      simp only [completeFn]
      rw [if_pos hfirstcond]
    have hcappos : 0 < remainingCapacity { s with runningPromises := s.runningPromises - 1, outstanding := s.outstanding.drop 1 } := by
      rw [hcap1]
      norm_num
    have hb1 : min (remainingCapacity { s with runningPromises := s.runningPromises - 1, outstanding := s.outstanding.drop 1 }).toNat ({ s with runningPromises := s.runningPromises - 1, outstanding := s.outstanding.drop 1 } : QueueState).queue.length = 1 := by
      rw [hcap1]
      exact Nat.min_eq_left hlq
    rw [hres, processNext_of_open _ hcappos hql, hb1]
    refine ⟨⟨hc, hpar, hcon, ?_, ?_, ?_, ?_⟩, ?_⟩
    · show s.runningPromises - 1 + ((1 : Nat) : Int) =
        (((s.outstanding.drop 1 ++ s.queue.take 1).length : Nat) : Int)
      rw [hdrop1]
      simp only [List.length_append, List.length_take]
      push_cast
      omega
    · show s.runningPromises - 1 + ((1 : Nat) : Int) ≤ c
      push_cast
      omega
    · show (acc ++ [t]) ++ (s.outstanding.drop 1 ++ s.queue.take 1) ++ s.queue.drop 1 = fns
      rw [hdrop1, ← hconcat, hout]
      simp [List.append_assoc]
      rw [← List.drop_one]
      exact List.take_append_drop 1 s.queue
    · by_cases hd2 : s.queue.drop 1 = []
      · exact Or.inl hd2
      · refine Or.inr ⟨hrun, ?_⟩
        show s.runningPromises - 1 + ((1 : Nat) : Int) = c
        push_cast
        omega
    · show (s.queue.drop 1).length + (s.outstanding.drop 1 ++ s.queue.take 1).length + 1 =
        s.queue.length + s.outstanding.length
      simp only [List.length_drop, List.length_append, List.length_take]
      omega


theorem drainAux_spec (fuel : Nat) :
    ∀ (c : Int) (fns acc : List Nat) (s : QueueState),
    drainInv c fns acc s → fuel = s.queue.length + s.outstanding.length →
    (drainAux fuel s acc).1 = fns ∧
    (drainAux fuel s acc).2.queue = [] ∧
    (drainAux fuel s acc).2.outstanding = [] ∧
    (drainAux fuel s acc).2.runningPromises = 0 := by
  induction fuel with
  | zero =>
    intro c fns acc s h hf
    obtain ⟨hc, hpar, hcon, hrp, hle, hconcat, hdisj⟩ := h
    have hq : s.queue = [] := List.eq_nil_of_length_eq_zero (by omega)
    have ho : s.outstanding = [] := List.eq_nil_of_length_eq_zero (by omega)
    refine ⟨?_, hq, ho, ?_⟩
    · show acc = fns
      rw [hq, ho] at hconcat
      simpa using hconcat
    · show s.runningPromises = 0
      rw [hrp, ho]
      simp
  | succ fuel ih =>
    intro c fns acc s h hf
    cases hout : s.outstanding with
    | nil =>
      exfalso
      obtain ⟨hc, hpar, hcon, hrp, hle, hconcat, hdisj⟩ := h
      have hrp0 : s.runningPromises = 0 := by rw [hrp, hout]; simp
      have hq : s.queue = [] := by
        rcases hdisj with hq | ⟨_, hsat⟩
        · exact hq
        · rw [hrp0] at hsat
          omega
      rw [hq, hout] at hf
      simp at hf
    | cons t rest =>
      obtain ⟨hstep, hmeasure⟩ := drainInv_step h t rest hout
      rw [drainAux_succ_cons fuel s acc t rest hout]
      exact ih c fns (acc ++ [t]) (completeFn s).1 hstep (by omega)

/-- C7 (claim theorem).  Task errors are suppressed by the queue:
`executeTask` succeeds regardless of the task's own outcome, the completion
bookkeeping is independent of the outcome (the source's `finally` block
discards it before any bookkeeping), and from any single submission of
tasks to a fresh parentless queue of positive concurrency, draining runs
every submitted task to completion — a failing task never stops the
remaining backlogged tasks from being admitted and run — ending with an
empty backlog, an empty in-flight set and a false `waitStop` guard, so no
error is ever thrown out of `add` or `waitStop` (both are total). -/
theorem task_errors_suppressed (r r1 r2 : Except String Unit) (u : QueueState)
    (c : Int) (hc : 0 < c) (fns : List Nat) :
    executeTask r = Except.ok () ∧
    completeWithOutcome r1 u = completeWithOutcome r2 u ∧
    (drain (addFn (initQueue c none) fns).1).1 = fns ∧
    (drain (addFn (initQueue c none) fns).1).2.queue = [] ∧
    (drain (addFn (initQueue c none) fns).1).2.outstanding = [] ∧
    waitStopBusy (drain (addFn (initQueue c none) fns).1).2 = false := by
  have hspec := drainAux_spec ((addFn (initQueue c none) fns).1.queue.length +
      (addFn (initQueue c none) fns).1.outstanding.length) c fns []
      (addFn (initQueue c none) fns).1 (drainInv_add c hc fns) rfl
  have hguard : ∀ t : QueueState, t.queue = [] → t.runningPromises = 0 →
      waitStopBusy t = false := by
    intro t h1 h2
    simp [waitStopBusy, h1, h2]
  refine ⟨?_, rfl, hspec.1, hspec.2.1, hspec.2.2.1, ?_⟩
  · cases r <;> rfl
  · exact hguard _ hspec.2.1 hspec.2.2.2

/-- Witness for C7: three tasks on a fresh queue of concurrency 2 — all
three run to completion and the queue ends idle. -/
theorem task_errors_suppressed_witness :
    (0 : Int) < 2 ∧
    (drain (addFn (initQueue 2 none) [0, 1, 2]).1).1 = [0, 1, 2] ∧
    waitStopBusy (drain (addFn (initQueue 2 none) [0, 1, 2]).1).2 = false := by
  have h := task_errors_suppressed (Except.error "boom") (Except.error "x")
    (Except.ok ()) (initQueue 2 none) 2 (by decide) [0, 1, 2]
  exact ⟨by decide, h.2.2.1, h.2.2.2.2.2⟩

end UseAsyncHelpers
